import Mathlib

/-!
Shallow embedding of `external_sort.py` (an external merge-sort for delimited
text files) and proofs about its claimed properties.

Modelling conventions:
* A file's content is a `List Char` (`Str`).  Python opens every file in text
  mode, so reads pass through universal-newline translation (`univNewlines`).
* The `csv` module's reader/writer (default dialect: quotechar `"`,
  doublequote, QUOTE_MINIMAL, non-strict, lineterminator `"\r\n"`) is embedded
  as an explicit state machine (`csvGo`) and a minimal-quoting writer
  (`writeRow`), both validated against CPython's `_csv` behaviour.
* The temporary directory `./.tmp` is a list of `(full path, content)` pairs;
  `os.listdir` is modelled as returning this list's order (creation order).
* Machine-level details that cannot affect the claims (process pool plumbing,
  actual on-disk I/O) are reduced to their observable effect on file contents.
-/

set_option maxRecDepth 10000

abbrev Str := List Char

/-- Universal-newline translation applied by Python text-mode file reads:
`"\r\n"` and a lone `"\r"` both become `"\n"`. -/
def univNewlines : Str → Str
  | [] => []
  | '\r' :: '\n' :: rest => '\n' :: univNewlines rest
  | '\r' :: rest => '\n' :: univNewlines rest
  | c :: rest => c :: univNewlines rest

/-- Iterating `f.readline()` to the end of the file: splits a text-mode stream
into lines, each keeping its trailing `'\n'`; a last line without a newline is
returned as-is; no empty line is ever produced. -/
def pyReadLines (s : Str) : List Str :=
  go s []
where
  go : Str → Str → List Str
    | [], acc => if acc.isEmpty then [] else [acc.reverse]
    | c :: rest, acc =>
      if c = '\n' then (acc.reverse ++ ['\n']) :: go rest []
      else go rest (c :: acc)

/-- The whitespace characters removed by Python's `str.strip()`, restricted
to the ASCII ones that can occur here (the full Unicode whitespace set is not
needed for delimiter-separated headers). -/
def pyIsSpace (c : Char) : Bool :=
  c = ' ' || c = '\t' || c = '\n' || c = '\r' || c = '\x0b' || c = '\x0c'

/-- Python `str.strip()`. -/
def pyStrip (s : Str) : Str :=
  ((s.dropWhile pyIsSpace).reverse.dropWhile pyIsSpace).reverse

/-- Python `str.split(sep)` for a one-character separator: splits at every
occurrence, never merging; `"".split(sep) == [""]`. -/
def pySplitOn (sep : Char) : Str → List Str
  | [] => [[]]
  | c :: rest =>
    let tail := pySplitOn sep rest
    if c = sep then [] :: tail
    else match tail with
      | [] => [[c]]
      | t :: ts => (c :: t) :: ts

/-- Join a list of strings, interposing a one-character separator. -/
def joinSep (sep : Char) : List Str → Str
  | [] => []
  | [s] => s
  | s :: rest => s ++ sep :: joinSep sep rest

/-! ### The `csv` module, default dialect

Reader states mirror CPython's `_csv.c` parser (non-strict, doublequote,
escapechar unset, skipinitialspace off).  Since every read passes through
`univNewlines` first, the input contains no `'\r'`; any `'\r'` that does
appear is treated as an ordinary character. -/

inductive CsvState where
  | startRecord
  | startField
  | inField
  | inQuoted
  | quoteInQuoted
deriving DecidableEq

/-- One pass of the csv reader over the remaining input.  `field` is the
current field's accumulated characters, `row` the completed fields of the
current record, `acc` the completed records. -/
def csvGo (d : Char) : Str → CsvState → Str → List Str → List (List Str) →
    List (List Str)
  | [], .startRecord, _, _, acc => acc
  | [], .startField, field, row, acc => acc ++ [row ++ [field]]
  | [], .inField, field, row, acc => acc ++ [row ++ [field]]
  | [], .inQuoted, field, row, acc => acc ++ [row ++ [field]]
  | [], .quoteInQuoted, field, row, acc => acc ++ [row ++ [field]]
  | c :: rest, .startRecord, field, row, acc =>
    if c = '\n' then csvGo d rest .startRecord field row (acc ++ [[]])
    else if c = '"' then csvGo d rest .inQuoted [] [] acc
    else if c = d then csvGo d rest .startField [] [[]] acc
    else csvGo d rest .inField [c] [] acc
  | c :: rest, .startField, field, row, acc =>
    if c = '\n' then csvGo d rest .startRecord [] [] (acc ++ [row ++ [field]])
    else if c = '"' then csvGo d rest .inQuoted field row acc
    else if c = d then csvGo d rest .startField [] (row ++ [field]) acc
    else csvGo d rest .inField (field ++ [c]) row acc
  | c :: rest, .inField, field, row, acc =>
    if c = '\n' then csvGo d rest .startRecord [] [] (acc ++ [row ++ [field]])
    else if c = d then csvGo d rest .startField [] (row ++ [field]) acc
    else csvGo d rest .inField (field ++ [c]) row acc
  | c :: rest, .inQuoted, field, row, acc =>
    if c = '"' then csvGo d rest .quoteInQuoted field row acc
    else csvGo d rest .inQuoted (field ++ [c]) row acc
  | c :: rest, .quoteInQuoted, field, row, acc =>
    if c = '"' then csvGo d rest .inQuoted (field ++ ['"']) row acc
    else if c = '\n' then csvGo d rest .startRecord [] [] (acc ++ [row ++ [field]])
    else if c = d then csvGo d rest .startField [] (row ++ [field]) acc
    else csvGo d rest .inField (field ++ [c]) row acc

/-- The records `list(csv.reader(f, delimiter=d))` of an already newline-translated
stream. -/
def parseCsv (d : Char) (s : Str) : List (List Str) :=
  csvGo d s .startRecord [] [] []

/-- QUOTE_MINIMAL: a field is quoted iff it contains the delimiter, the quote
character, or a line break — or if it is the only field of its record and is
empty (so the record is not mistaken for a blank line). -/
def fieldNeedsQuote (d : Char) (lone : Bool) (f : Str) : Bool :=
  f.any (fun c => c = d || c = '"' || c = '\n' || c = '\r') || (lone && f.isEmpty)

/-- Render one field, doubling embedded quote characters when quoting. -/
def renderField (d : Char) (lone : Bool) (f : Str) : Str :=
  if fieldNeedsQuote d lone f then
    '"' :: (f.flatMap fun c => if c = '"' then ['"', '"'] else [c]) ++ ['"']
  else f

/-- One `csv.writer(f, delimiter=d).writerow(row)` call: minimal quoting, records
terminated with `"\r\n"`. -/
def writeRow (d : Char) (row : List Str) : Str :=
  match row with
  | [] => ['\r', '\n']
  | _ => joinSep d (row.map (renderField d (row.length = 1))) ++ ['\r', '\n']

/-- Write a sequence of records. -/
def writeRows (d : Char) (rows : List (List Str)) : Str :=
  (rows.map (writeRow d)).flatten

example : parseCsv ',' ("a,b\n".data) = [["a".data, "b".data]] := by decide
example : parseCsv ',' ("\"a\"b,c\n".data) = [["ab".data, "c".data]] := by decide
example : parseCsv ',' ("\na\n\n".data) = [[], ["a".data], []] := by decide
example : parseCsv ',' ("a,\n".data) = [["a".data, []]] := by decide
example : parseCsv ',' ("a,".data) = [["a".data, []]] := by decide
example : parseCsv ',' ("\"ab".data) = [["ab".data]] := by decide
example : writeRow ',' [[]] = "\"\"\r\n".data := by decide
example : writeRow ',' [] = "\r\n".data := by decide
example : writeRow ',' ["a;b".data, "c".data] = "a;b,c\r\n".data := by decide
example : writeRow ';' ["a;b".data, "x\"y".data] = "\"a;b\";\"x\"\"y\"\r\n".data := by
  decide

/-! ### Python comparison of sort keys

CPython compares strings by code point and lists lexicographically
elementwise; sort keys are lists of strings. -/

/-- Python `<` on strings (code-point lexicographic). -/
def ltStr : Str → Str → Bool
  | [], [] => false
  | [], _ :: _ => true
  | _ :: _, [] => false
  | a :: as, b :: bs => if a < b then true else if b < a then false else ltStr as bs

/-- Python `<` on lists of strings (lexicographic, elementwise). -/
def ltKey : List Str → List Str → Bool
  | [], [] => false
  | [], _ :: _ => true
  | _ :: _, [] => false
  | a :: as, b :: bs =>
    if ltStr a b then true else if ltStr b a then false else ltKey as bs

theorem ltStr_asymm : ∀ {a b : Str}, ltStr a b = true → ltStr b a = false
  | [], [], h => by simp [ltStr] at h
  | [], _ :: _, _ => by simp [ltStr]
  | _ :: _, [], h => by simp [ltStr] at h
  | a :: as, b :: bs, h => by
    by_cases hab : a < b
    · simp [ltStr, hab, asymm hab]
    · by_cases hba : b < a
      · simp [ltStr, hab, hba] at h
      · simpa [ltStr, hab, hba] using ltStr_asymm (by simpa [ltStr, hab, hba] using h)

theorem ltStr_conn : ∀ {a b : Str}, ltStr a b = false → ltStr b a = false → a = b
  | [], [], _, _ => rfl
  | [], _ :: _, h, _ => by simp [ltStr] at h
  | _ :: _, [], _, h => by simp [ltStr] at h
  | a :: as, b :: bs, h, h2 => by
    by_cases hab : a < b
    · simp [ltStr, hab] at h
    · by_cases hba : b < a
      · simp [ltStr, hba, asymm hba] at h2
      · have : a = b := le_antisymm (not_lt.mp hba) (not_lt.mp hab)
        subst this
        have := ltStr_conn (a := as) (b := bs)
          (by simpa [ltStr, hab, hba] using h) (by simpa [ltStr, hab, hba] using h2)
        simp [this]


theorem ltStr_irrefl : ∀ (a : Str), ltStr a a = false
  | [] => rfl
  | a :: as => by simp [ltStr, ltStr_irrefl as]

theorem ltStr_cons : ∀ {a b : Char} {as bs : Str},
    ltStr (a :: as) (b :: bs) = true ↔ a < b ∨ (a = b ∧ ltStr as bs = true) := by
  intro a b as bs
  by_cases hab : a < b
  · simp [ltStr, hab]
  · by_cases hba : b < a
    · have hne : a ≠ b := by
        intro h
        rw [h] at hba
        exact lt_irrefl _ hba
      simp [ltStr, hab, hba, hne]
    · have he : a = b := le_antisymm (not_lt.mp hba) (not_lt.mp hab)
      subst he
      simp [ltStr, hab, hba]

theorem ltStr_trans : ∀ {a b c : Str}, ltStr a b = true → ltStr b c = true →
    ltStr a c = true
  | [], _, _ :: _, _, _ => by simp [ltStr]
  | [], _ :: _, [], _, h => by simp [ltStr] at h
  | [], [], [], h, _ => by simp [ltStr] at h
  | _ :: _, [], _, h, _ => by simp [ltStr] at h
  | _ :: _, _ :: _, [], _, h => by simp [ltStr] at h
  | a :: as, b :: bs, c :: cs, h, h2 => by
    rw [ltStr_cons] at h h2 ⊢
    rcases h with h | ⟨rfl, h⟩
    · rcases h2 with h2 | ⟨rfl, _⟩
      · exact Or.inl (lt_trans h h2)
      · exact Or.inl h
    · rcases h2 with h2 | ⟨rfl, h2⟩
      · exact Or.inl h2
      · exact Or.inr ⟨rfl, ltStr_trans h h2⟩

theorem ltKey_cons : ∀ {a b : Str} {as bs : List Str},
    ltKey (a :: as) (b :: bs) = true ↔
      ltStr a b = true ∨ (a = b ∧ ltKey as bs = true) := by
  intro a b as bs
  by_cases hab : ltStr a b = true
  · simp [ltKey, hab]
  · by_cases hba : ltStr b a = true
    · have hne : ¬ a = b := by
        intro h
        rw [h, ltStr_irrefl] at hba
        exact Bool.false_ne_true hba
      simp [ltKey, hab, hba, hne]
    · have he : a = b :=
        ltStr_conn (Bool.not_eq_true _ ▸ hab) (Bool.not_eq_true _ ▸ hba)
      subst he
      simp [ltKey, ltStr_irrefl]

theorem ltKey_irrefl : ∀ (a : List Str), ltKey a a = false
  | [] => rfl
  | a :: as => by simp [ltKey, ltStr_irrefl, ltKey_irrefl as]

theorem ltKey_asymm : ∀ {a b : List Str}, ltKey a b = true → ltKey b a = false
  | [], [], h => by simp [ltKey] at h
  | [], _ :: _, _ => by simp [ltKey]
  | _ :: _, [], h => by simp [ltKey] at h
  | a :: as, b :: bs, h => by
    rw [ltKey_cons] at h
    rw [Bool.eq_false_iff]
    intro h2
    rw [ltKey_cons] at h2
    rcases h with h | ⟨he, h⟩ <;> rcases h2 with h2 | ⟨he2, h2⟩
    · rw [ltStr_asymm h] at h2
      exact Bool.false_ne_true h2
    · rw [he2, ltStr_irrefl] at h
      exact Bool.false_ne_true h
    · rw [he, ltStr_irrefl] at h2
      exact Bool.false_ne_true h2
    · rw [ltKey_asymm h] at h2
      exact Bool.false_ne_true h2

theorem ltKey_conn : ∀ {a b : List Str}, ltKey a b = false → ltKey b a = false →
    a = b
  | [], [], _, _ => rfl
  | [], _ :: _, h, _ => by simp [ltKey] at h
  | _ :: _, [], _, h => by simp [ltKey] at h
  | a :: as, b :: bs, h, h2 => by
    have hab : ltStr a b = false := by
      cases h3 : ltStr a b
      · rfl
      · exact absurd (ltKey_cons.mpr (Or.inl h3)) (by rw [h]; simp)
    have hba : ltStr b a = false := by
      cases h3 : ltStr b a
      · rfl
      · exact absurd (ltKey_cons.mpr (Or.inl h3)) (by rw [h2]; simp)
    have he : a = b := ltStr_conn hab hba
    subst he
    have h4 : ltKey as bs = false := by
      cases h3 : ltKey as bs
      · rfl
      · exact absurd (ltKey_cons.mpr (Or.inr ⟨rfl, h3⟩)) (by rw [h]; simp)
    have h5 : ltKey bs as = false := by
      cases h3 : ltKey bs as
      · rfl
      · exact absurd (ltKey_cons.mpr (Or.inr ⟨rfl, h3⟩)) (by rw [h2]; simp)
    rw [ltKey_conn h4 h5]

theorem ltKey_trans : ∀ {a b c : List Str}, ltKey a b = true → ltKey b c = true →
    ltKey a c = true
  | [], _, _ :: _, _, _ => by simp [ltKey]
  | [], _ :: _, [], _, h => by simp [ltKey] at h
  | [], [], [], h, _ => by simp [ltKey] at h
  | _ :: _, [], _, h, _ => by simp [ltKey] at h
  | _ :: _, _ :: _, [], _, h => by simp [ltKey] at h
  | a :: as, b :: bs, c :: cs, h, h2 => by
    rw [ltKey_cons] at h h2 ⊢
    rcases h with h | ⟨rfl, h⟩
    · rcases h2 with h2 | ⟨rfl, _⟩
      · exact Or.inl (ltStr_trans h h2)
      · exact Or.inl h
    · rcases h2 with h2 | ⟨rfl, h2⟩
      · exact Or.inl h2
      · exact Or.inr ⟨rfl, ltKey_trans h h2⟩

/-! ### Errors and the chunk sorter `sort_file` -/

/-- The Python exception kinds that the pipeline can raise. -/
inductive PyError where
  | indexError
  | keyError
  | attributeError
deriving DecidableEq

/-- Evaluate a function over a list, failing if any element fails
(first failure wins, as a Python loop would raise at it). -/
def mapOpt (f : α → Option β) : List α → Option (List β)
  | [] => some []
  | a :: rest =>
    match f a with
    | none => none
    | some b => (mapOpt f rest).map (fun l => b :: l)

/-- Python `[row[i] for i in sort_keys]`: the composite key of a record.  `row[i]`
raises `IndexError` (modelled as `none`) when `i` is out of range. -/
def sortFunc (sort_keys : List Nat) (row : List Str) : Option (List Str) :=
  mapOpt (fun i => row.get? i) sort_keys

/-- The comparison under which Python's stable ascending `list.sort(key=...)`
orders precomputed `(key, row)` pairs. -/
def keyedLe (a b : List Str × List Str) : Bool := ! ltKey b.1 a.1

/-- Model of `sort_file(file_loc, sort_keys, delimiter)`: load the whole file through
`csv.reader`, stably sort the records by their composite key, and rewrite the
same file through `csv.writer` with the same delimiter.  Python's sort is
stable and ascending, which determines its output uniquely; it is embedded
via `List.mergeSort` over key/record pairs (CPython also precomputes all keys
first, raising `IndexError` at the first record whose key is out of range).
The returned string is the new content of the same (overwritten) file. -/
def sort_file (content : Str) (sort_keys : List Nat) (delimiter : Char) :
    Except PyError Str :=
  let rows := parseCsv delimiter (univNewlines content)
  match mapOpt (fun row => (sortFunc sort_keys row).map (fun k => (k, row))) rows with
  | none => .error .indexError
  | some keyed =>
    let sorted := keyed.mergeSort keyedLe
    .ok (writeRows delimiter (sorted.map (fun p => p.2)))

theorem keyedLe_trans (a b c : List Str × List Str) :
    keyedLe a b → keyedLe b c → keyedLe a c := by
  simp only [keyedLe, Bool.not_eq_true', Bool.not_eq_false]
  intro h h2
  cases h3 : ltKey c.1 a.1
  · rfl
  · exfalso
    cases h5 : ltKey b.1 c.1
    · have he : b.1 = c.1 := ltKey_conn h5 h2
      rw [← he] at h3
      rw [h3] at h
      exact absurd h (by simp)
    · have h6 := ltKey_trans h5 h3
      rw [h6] at h
      exact absurd h (by simp)

theorem keyedLe_total (a b : List Str × List Str) : keyedLe a b || keyedLe b a := by
  simp only [keyedLe, Bool.not_eq_true']
  cases h : ltKey b.1 a.1
  · simp
  · simp [ltKey_asymm h]

/-! ### `hashlib.md5`, used by `merge_files` to derive output names -/

/-- UTF-8 encoding of a string (`str.encode('utf-8')`), as byte values. -/
def utf8Bytes (s : Str) : List Nat :=
  s.flatMap fun c =>
    let n := c.toNat
    if n < 0x80 then [n]
    else if n < 0x800 then [0xc0 + n / 64, 0x80 + n % 64]
    else if n < 0x10000 then
      [0xe0 + n / 4096, 0x80 + (n / 64) % 64, 0x80 + n % 64]
    else
      [0xf0 + n / 262144, 0x80 + (n / 4096) % 64, 0x80 + (n / 64) % 64,
        0x80 + n % 64]

/-- The word modulus of MD5, 2^32. -/
def m32 : Nat := 4294967296

/-- The MD5 sine-derived constant table `K`. -/
def md5K : List Nat :=
  [0xd76aa478, 0xe8c7b756, 0x242070db, 0xc1bdceee, 0xf57c0faf, 0x4787c62a,
   0xa8304613, 0xfd469501, 0x698098d8, 0x8b44f7af, 0xffff5bb1, 0x895cd7be,
   0x6b901122, 0xfd987193, 0xa679438e, 0x49b40821, 0xf61e2562, 0xc040b340,
   0x265e5a51, 0xe9b6c7aa, 0xd62f105d, 0x02441453, 0xd8a1e681, 0xe7d3fbc8,
   0x21e1cde6, 0xc33707d6, 0xf4d50d87, 0x455a14ed, 0xa9e3e905, 0xfcefa3f8,
   0x676f02d9, 0x8d2a4c8a, 0xfffa3942, 0x8771f681, 0x6d9d6122, 0xfde5380c,
   0xa4beea44, 0x4bdecfa9, 0xf6bb4b60, 0xbebfbc70, 0x289b7ec6, 0xeaa127fa,
   0xd4ef3085, 0x04881d05, 0xd9d4d039, 0xe6db99e5, 0x1fa27cf8, 0xc4ac5665,
   0xf4292244, 0x432aff97, 0xab9423a7, 0xfc93a039, 0x655b59c3, 0x8f0ccc92,
   0xffeff47d, 0x85845dd1, 0x6fa87e4f, 0xfe2ce6e0, 0xa3014314, 0x4e0811a1,
   0xf7537e82, 0xbd3af235, 0x2ad7d2bb, 0xeb86d391]

/-- The MD5 per-round left-rotation amounts `s`. -/
def md5S : List Nat :=
  [7, 12, 17, 22, 7, 12, 17, 22, 7, 12, 17, 22, 7, 12, 17, 22,
   5, 9, 14, 20, 5, 9, 14, 20, 5, 9, 14, 20, 5, 9, 14, 20,
   4, 11, 16, 23, 4, 11, 16, 23, 4, 11, 16, 23, 4, 11, 16, 23,
   6, 10, 15, 21, 6, 10, 15, 21, 6, 10, 15, 21, 6, 10, 15, 21]

/-- Left rotation of a 32-bit word. -/
def rotl32 (x s : Nat) : Nat := ((x <<< s) % m32) ||| (x >>> (32 - s))

/-- A number as `k` little-endian bytes. -/
def leBytes (k n : Nat) : List Nat := (List.range k).map fun i => (n >>> (8 * i)) % 256

/-- MD5 padding: `0x80`, zeros to 56 mod 64, then the bit length as 8
little-endian bytes. -/
def md5Pad (msg : List Nat) : List Nat :=
  let z := (120 - ((msg.length + 1) % 64)) % 64
  msg ++ [0x80] ++ List.replicate z 0 ++ leBytes 8 (8 * msg.length)

/-- Decode a 64-byte block into 16 little-endian 32-bit words. -/
def md5Words (block : List Nat) : List Nat :=
  (List.range 16).map fun i =>
    block.getD (4 * i) 0 + 256 * block.getD (4 * i + 1) 0 +
      65536 * block.getD (4 * i + 2) 0 + 16777216 * block.getD (4 * i + 3) 0

/-- One of the 64 MD5 operations. -/
def md5Step (M : List Nat) (st : Nat × Nat × Nat × Nat) (i : Nat) :
    Nat × Nat × Nat × Nat :=
  let (A, B, C, D) := st
  let F :=
    if i < 16 then (B &&& C) ||| ((B ^^^ 0xffffffff) &&& D)
    else if i < 32 then (D &&& B) ||| ((D ^^^ 0xffffffff) &&& C)
    else if i < 48 then B ^^^ C ^^^ D
    else C ^^^ (B ||| (D ^^^ 0xffffffff))
  let g :=
    if i < 16 then i
    else if i < 32 then (5 * i + 1) % 16
    else if i < 48 then (3 * i + 5) % 16
    else (7 * i) % 16
  let F2 := (F + A + md5K.getD i 0 + M.getD g 0) % m32
  (D, (B + rotl32 F2 (md5S.getD i 0)) % m32, B, C)

/-- Absorb one 64-byte block. -/
def md5Block (st : Nat × Nat × Nat × Nat) (block : List Nat) :
    Nat × Nat × Nat × Nat :=
  let M := md5Words block
  let r := (List.range 64).foldl (md5Step M) st
  ((st.1 + r.1) % m32, (st.2.1 + r.2.1) % m32, (st.2.2.1 + r.2.2.1) % m32,
    (st.2.2.2 + r.2.2.2) % m32)

/-- Split a list into consecutive pieces of 64 elements. -/
def chunks64 (l : List α) : List (List α) :=
  go l.length l
where
  go : Nat → List α → List (List α)
    | 0, _ => []
    | _, [] => []
    | fuel + 1, l => l.take 64 :: go fuel (l.drop 64)

/-- The 16-byte MD5 digest of a byte sequence. -/
def md5Bytes (msg : List Nat) : List Nat :=
  let st := (chunks64 (md5Pad msg)).foldl md5Block
    (0x67452301, 0xefcdab89, 0x98badcfe, 0x10325476)
  leBytes 4 st.1 ++ leBytes 4 st.2.1 ++ leBytes 4 st.2.2.1 ++ leBytes 4 st.2.2.2

/-- One lowercase hex digit. -/
def hexDigit (n : Nat) : Char := if n < 10 then Char.ofNat (48 + n) else Char.ofNat (87 + n)

/-- Model of `hashlib.md5(s.encode('utf-8')).hexdigest()`. -/
def md5Hex (s : Str) : Str :=
  ((utf8Bytes s |> md5Bytes).map fun b => [hexDigit (b / 16), hexDigit (b % 16)]).flatten

/-- The merge output name: `'./.tmp/' + md5(''.join(files)).hexdigest() + '.csv'`,
a function of the input file path names only. -/
def mergeName (files : List Str) : Str :=
  "./.tmp/".data ++ md5Hex files.flatten ++ ".csv".data

example : md5Hex "".data = "d41d8cd98f00b204e9800998ecf8427e".data := by decide
example : md5Hex "abc".data = "900150983cd24fb0d6963f7d28e17f72".data := by decide
example : md5Hex "./.tmp/split0.csv./.tmp/split1.csv".data =
    "3cc6e9d07be2245cc752179d2939ed78".data := by decide

/-! ### `heapq.merge` and `merge_files` -/

/-- A live input stream inside `heapq.merge`'s heap: the key of its head
record, its position among the iterables (the heap's tie-breaker), the head
record, and the rest of the stream. -/
structure HqEntry where
  key : List Str
  idx : Nat
  row : List Str
  rest : List (List Str)

/-- Heap ordering on entries: by key, ties broken by iterable position. -/
def hqLt (a b : HqEntry) : Bool :=
  ltKey a.key b.key || (a.key = b.key && a.idx < b.idx)

/-- Build the initial heap: skip exhausted iterables, computing the key of
each remaining head in iterable order (the first failing key evaluation
raises before anything is merged). -/
def hqInit (sort_keys : List Nat) : Nat → List (List (List Str)) →
    Except PyError (List HqEntry)
  | _, [] => .ok []
  | i, s :: rest =>
    match s with
    | [] => hqInit sort_keys (i + 1) rest
    | h :: t =>
      match sortFunc sort_keys h with
      | none => .error .indexError
      | some k => (hqInit sort_keys (i + 1) rest).map (fun l => ⟨k, i, h, t⟩ :: l)

/-- The minimum entry of a non-empty heap. -/
def hqMin (e : HqEntry) (es : List HqEntry) : HqEntry :=
  es.foldl (fun m x => if hqLt x m then x else m) e

/-- The merge loop: repeatedly emit the minimum head.  After emitting, the
popped stream's next head has its key computed (an out-of-range sort key
raises there, after the emit); when a stream is exhausted it leaves the heap;
once a single stream remains, its head and tail are emitted without any
further key evaluation (CPython's fast path). -/
def hqGo (sort_keys : List Nat) :
    Nat → List HqEntry → List (List Str) → List (List Str) × Option PyError
  | 0, _, acc => (acc, none)
  | _, [], acc => (acc, none)
  | _, [e], acc => (acc ++ e.row :: e.rest, none)
  | fuel + 1, e :: es, acc =>
    let m := hqMin e es
    let acc2 := acc ++ [m.row]
    match m.rest with
    | [] => hqGo sort_keys fuel ((e :: es).filter (fun x => x.idx ≠ m.idx)) acc2
    | h :: t =>
      match sortFunc sort_keys h with
      | none => (acc2, some .indexError)
      | some k =>
        hqGo sort_keys fuel
          ((e :: es).map (fun x => if x.idx = m.idx then ⟨k, m.idx, h, t⟩ else x))
          acc2

/-- Model of `heapq.merge(*gen_files, key=sort_func)`, drained to a list.  Returns the
records emitted and, if a key evaluation raised, the pending error. -/
def heapqMerge (sort_keys : List Nat) (streams : List (List (List Str))) :
    List (List Str) × Option PyError :=
  match hqInit sort_keys 0 streams with
  | .error e => ([], some e)
  | .ok entries =>
    hqGo sort_keys ((streams.map List.length).sum + 1) entries []

/-- The observable result of one `merge_files` call: the created output file
(name and content) and whether the call completed; on an error the partially
written output exists but the inputs are not deleted. -/
structure MergeOut where
  name : Str
  content : Str
  ok : Bool

/-- Model of `merge_files(files, sort_keys, header, delimiter)`.  Each input is a
`(full path, content)` pair.  Faithful to the source, `_yield_rows` passes no
delimiter to `csv.reader`, so every input is parsed with `','` regardless of
the configured delimiter, while records are written with the configured
delimiter.  The header, when given and non-empty (Python's `if header:`), is
written first. -/
def merge_files (files : List (Str × Str)) (sort_keys : List Nat)
    (header : Option (List Str)) (delimiter : Char) : MergeOut :=
  let name := mergeName (files.map (fun f => f.1))
  let streams := files.map (fun f => parseCsv ',' (univNewlines f.2))
  let headerOut :=
    match header with
    | some h => if h.isEmpty then [] else writeRow delimiter h
    | none => []
  let r := heapqMerge sort_keys streams
  { name := name, content := headerOut ++ writeRows delimiter r.1,
    ok := r.2.isNone }

example :
    heapqMerge [0] [[["3".data], ["1".data]], [["2".data], ["0".data]]] =
      ([["2".data], ["0".data], ["3".data], ["1".data]], none) := by decide

/-! ### `create_temp_files` (partitioner) -/

/-- The chunk path `'./.tmp/split{0}.csv'.format(file_num)`. -/
def splitName (n : Nat) : Str :=
  "./.tmp/split".data ++ (toString n).data ++ ".csv".data

/-- The rollover test `len(data) >= max_size` after `max_size *= 1048576`: the chunk buffer has
reached the configured threshold.  Phrased over the numerator and denominator
so that it evaluates by pure integer arithmetic;
`thresholdReached_iff` states the intended rational inequality. -/
def thresholdReached (max_size : ℚ) (len : Nat) : Bool :=
  decide (max_size.num * 1048576 ≤ (len : Int) * (max_size.den : Int))

theorem thresholdReached_iff (q : ℚ) (n : Nat) :
    thresholdReached q n = true ↔ q * 1048576 ≤ (n : ℚ) := by
  have hden : (0:ℚ) < (q.den : ℚ) := by exact_mod_cast q.pos
  have hq : (q : ℚ) * (q.den : ℚ) = (q.num : ℚ) := by
    nth_rewrite 1 [← Rat.num_div_den q]
    exact div_mul_cancel₀ _ (by exact_mod_cast q.den_ne_zero)
  rw [thresholdReached, decide_eq_true_eq]
  rw [← mul_le_mul_right hden, mul_right_comm, hq]
  constructor
  · intro h
    exact_mod_cast h
  · intro h
    exact_mod_cast h

/-- The partition loop.  `data` is the accumulated buffer since the last
flush, `opened` the name of the currently open (still empty on disk) chunk
file, `acc` the finished chunk files.  A chunk file's name is recorded when
the file is opened — before its first record is buffered — and its content is
written at flush time; after each appended line the buffer is flushed iff its
length has reached the threshold. -/
def ctfGo (max_size : ℚ) :
    List Str → Str → Nat → Option Str → List (Str × Str) → List (Str × Str)
  | [], _, _, none, acc => acc
  | [], data, _, some name, acc => acc ++ [(name, data)]
  | row :: rest, data, fileNum, opened, acc =>
    let name := match opened with | some n => n | none => splitName fileNum
    let data2 := data ++ row
    if thresholdReached max_size data2.length then
      ctfGo max_size rest [] (fileNum + 1) none (acc ++ [(name, data2)])
    else
      ctfGo max_size rest data2 fileNum (some name) acc

/-- The lines that `create_temp_files` distributes into chunks: every line of
the source except, when a header is expected, the first. -/
def dataRows (content : Str) (header : Bool) : List Str :=
  let rows := pyReadLines (univNewlines content)
  if header then rows.tail else rows

/-- Model of `create_temp_files(file_loc, max_size, header)`: split the source into
chunk files under `./.tmp` (`max_size` is in MiB, multiplied by 1048576), and
return them with the captured header line (`None` when `header` is false or
the file is empty). -/
def create_temp_files (content : Str) (max_size : ℚ) (header : Bool) :
    List (Str × Str) × Option Str :=
  let rows := pyReadLines (univNewlines content)
  let header_cols := if header then rows.head? else none
  (ctfGo max_size (dataRows content header) [] 0 none [], header_cols)

/-! ### The pipeline orchestrator `external_sort` -/

/-- The contents of `./.tmp` as `(full path, content)` pairs; `os.listdir` is
modelled as returning them in this (creation) order. -/
abbrev TmpDir := List (Str × Str)

/-- Model of `_build_merge_tasks(files, n_way)` (the source name begins with an
underscore): greedily batch the files into groups of `n_way`, the last group
possibly smaller. -/
def build_merge_tasks (files : List Str) (n_way : Nat) : List (List Str) :=
  let p := files.foldl
    (fun (p : List (List Str) × List Str) f =>
      let batch := p.2 ++ [f]
      if batch.length = n_way then (p.1 ++ [batch], []) else (p.1, batch))
    ([], [])
  if p.2.isEmpty then p.1 else p.1 ++ [p.2]

/-- Execute one merge task against the temp directory: the task's files are
read, merged, and on success deleted; the output file is created (truncating
any stale file of the same name). -/
def runMergeTask (sort_keys : List Nat) (header_arg : Option (List Str))
    (delimiter : Char) (fs : TmpDir) (task : List Str) : TmpDir :=
  let files := task.map (fun n => (n, (fs.lookup n).getD []))
  let out := merge_files files sort_keys header_arg delimiter
  let fs2 := if out.ok then fs.filter (fun p => ¬ task.contains p.1) else fs
  fs2.filter (fun p => p.1 ≠ out.name) ++ [(out.name, out.content)]

/-- The merge-round loop: while more than one file remains in `./.tmp`, batch
the current listing into tasks and run them (the source dispatches with
`m_tasks.pop()`, so tasks run in reverse build order; the round's barrier is
`m_pool.join()`).  The header is attached exactly when the round has a single
task.  `fuel` bounds the number of rounds; `none` models non-termination. -/
def mergeRounds (sort_keys : List Nat) (header_row : List Str)
    (delimiter : Char) (n_way : Nat) : Nat → TmpDir → Option TmpDir
  | 0, _ => none
  | fuel + 1, fs =>
    if fs.length ≤ 1 then some fs
    else
      let m_files := fs.map (fun p => p.1)
      let m_tasks := build_merge_tasks m_files n_way
      let header_arg := if m_tasks.length = 1 then some header_row else none
      mergeRounds sort_keys header_row delimiter n_way fuel
        (m_tasks.reverse.foldl (runMergeTask sort_keys header_arg delimiter) fs)

/-- Model of `external_sort(file_loc, sort_keys, n_proc, n_way, max_size, header,
delimiter, overwrite)`, reduced to its observable result: the destination
path and the content that ends up there, or the raised error.  `n_proc` only
sizes the worker pools and is dropped.

Two behaviours are modelled exactly as the source has them:
* `header_row = header_cols.strip().split(delimiter)` runs before anything
  else, so a `None` header (empty source, or `header=False`) raises
  `AttributeError` immediately;
* the chunk-sort dispatch is `s_pool.apply_async(args)` — the argument tuple
  itself is passed as the function to call, `sort_file` is never invoked, and
  the worker's `TypeError` is captured in an `AsyncResult` nobody reads — so
  the sort phase leaves every chunk file unchanged.

`none` models a run that never terminates. -/
def external_sort (file_loc : Str) (content : Str) (sort_keys : List Nat)
    (n_way : Nat) (max_size : ℚ) (header : Bool) (delimiter : Char)
    (overwrite : Bool) : Option (Except PyError (Str × Str)) :=
  let r := create_temp_files content max_size header
  match r.2 with
  | none => some (.error .attributeError)
  | some hc =>
    let header_row := pySplitOn delimiter (pyStrip hc)
    match mergeRounds sort_keys header_row delimiter n_way (r.1.length + 1) r.1 with
    | none => none
    | some fs =>
      let new_file_loc :=
        if overwrite then file_loc
        else
          let parts := pySplitOn '.' file_loc
          joinSep '.' parts.dropLast ++ "_sorted.".data ++ parts.getLastD []
      match fs with
      | [] => some (.error .indexError)
      | f :: _ => some (.ok (new_file_loc, f.2))

/-- The records of a delimited file, as a caller reading it back with the
configured delimiter sees them. -/
def fileRecords (d : Char) (content : Str) : List (List Str) :=
  parseCsv d (univNewlines content)

deriving instance DecidableEq for Except

/-! ### Claim theorems: concrete pipeline behaviour -/

/-- C1: refuted on the code.  The chunk-sort dispatch
`s_pool.apply_async(args)` passes the argument tuple itself as the function,
so `sort_file` never runs; with the input `"h\nb\na\n"` (one chunk, so the
merge loop is skipped as well) the produced output is `"b\na\n"`, whose two
adjacent records violate `key(r1) <= key(r2)` for `sort_keys=[0]`:
`key(r2) = ["a"] < ["b"] = key(r1)`. -/
theorem external_sort_global_order_violated :
    external_sort "in.csv".data "h\nb\na\n".data [0] 2 1 true ',' false =
      some (.ok ("in_sorted.csv".data, "b\na\n".data)) ∧
    fileRecords ',' "b\na\n".data = [["b".data], ["a".data]] ∧
    sortFunc [0] ["b".data] = some ["b".data] ∧
    sortFunc [0] ["a".data] = some ["a".data] ∧
    ltKey ["a".data] ["b".data] = true := by decide

/-- The value `1/1048576` MiB, i.e. a one-byte chunk threshold, as an explicit reduced
fraction (so that it evaluates without rational normalisation). -/
def tinyMiB : ℚ := ⟨1, 1048576, by norm_num, Nat.coprime_one_left _⟩

theorem tinyMiB_eq : tinyMiB = 1 / 1048576 := by
  rw [tinyMiB, Rat.mk'_eq_divInt, Rat.divInt_eq_div]
  norm_num

/-- C2: refuted on the code.  With delimiter `';'`, `_yield_rows` still
parses the chunk files with `','` (it never forwards its delimiter to
`csv.reader`), so the two input records `(b,x)` and `(a,y)` are re-written as
the quoted one-field records `"a;y"` and `"b;x"`: the output's record
multiset differs from the input's. -/
theorem external_sort_record_multiset_not_preserved :
    external_sort "in.csv".data "h1;h2\nb;x\na;y\n".data [0] 2 tinyMiB
        true ';' false =
      some (.ok ("in_sorted.csv".data,
        "h1;h2\r\n\"a;y\"\r\n\"b;x\"\r\n".data)) ∧
    (fileRecords ';' "h1;h2\r\n\"a;y\"\r\n\"b;x\"\r\n".data).tail =
      [["a;y".data], ["b;x".data]] ∧
    (fileRecords ';' "h1;h2\nb;x\na;y\n".data).tail =
      [["b".data, "x".data], ["a".data, "y".data]] ∧
    Multiset.ofList [["a;y".data], ["b;x".data]] ≠
      Multiset.ofList [["b".data, "x".data], ["a".data, "y".data]] := by decide

/-- C3: refuted on the code.  When partitioning yields a single chunk the
merge loop (`while len(os.listdir('./.tmp/')) > 1`) never runs, and the
header — only ever written by `merge_files` — is not written at all: the
output of sorting `"h\na\nb\n"` is `"a\nb\n"`, whose first line is not the
input's first line, and the header line appears nowhere in it. -/
theorem external_sort_header_lost_single_chunk :
    external_sort "in.csv".data "h\na\nb\n".data [0] 2 1 true ',' false =
      some (.ok ("in_sorted.csv".data, "a\nb\n".data)) ∧
    (pyReadLines (univNewlines "h\na\nb\n".data)).head? = some "h\n".data ∧
    (pyReadLines (univNewlines "a\nb\n".data)).head? = some "a\n".data ∧
    "h\n".data ∉ pyReadLines (univNewlines "a\nb\n".data) := by decide

/-- C4: refuted on the code.  A fully empty input leaves `header_cols` as
`None`, and `external_sort` immediately calls `.strip()` on it
(`AttributeError`); a header-only input yields zero chunks, the merge loop is
skipped, and `os.listdir('./.tmp/')[0]` raises `IndexError`.  Neither case
produces an output file. -/
theorem external_sort_empty_input_crashes :
    external_sort "in.csv".data "".data [0] 2 1 true ',' false =
      some (.error .attributeError) ∧
    external_sort "in.csv".data "h\n".data [0] 2 1 true ',' false =
      some (.error .indexError) := by decide

/-- C5: refuted on the code.  `merge_files` writes records with the
configured delimiter but parses its inputs through `_yield_rows`, which drops
the delimiter argument: merging the single sorted file `"a;b\n"` under
delimiter `';'` must reproduce the record `(a,b)`, but produces the one-field
record `a;b` (written quoted). -/
theorem merge_files_parses_with_wrong_delimiter :
    (merge_files [("./.tmp/split0.csv".data, "a;b\n".data)] [0] none ';').ok
      = true ∧
    (merge_files [("./.tmp/split0.csv".data, "a;b\n".data)] [0] none
        ';').content = "\"a;b\"\r\n".data ∧
    fileRecords ';' "a;b\n".data = [["a".data, "b".data]] ∧
    fileRecords ';' "\"a;b\"\r\n".data = [["a;b".data]] ∧
    ([["a".data, "b".data]] : List (List Str)) ≠ [["a;b".data]] := by decide

/-- C6, counterexample: a sort-key index out of range makes `sort_file` fail
with `IndexError` (list indexing), not `KeyError` as claimed. -/
theorem sort_file_raises_index_error_not_key_error :
    sort_file "a,b\n".data [5] ',' = .error .indexError ∧
    sort_file "a,b\n".data [5] ',' ≠ .error .keyError := by decide

/-- Evaluation by `mapOpt` fails exactly when some element fails. -/
theorem mapOpt_eq_none {f : α → Option β} :
    ∀ {l : List α}, mapOpt f l = none ↔ ∃ a ∈ l, f a = none
  | [] => by simp [mapOpt]
  | a :: rest => by
    cases h : f a with
    | none => simp [mapOpt, h]
    | some b =>
      simp [mapOpt, h, mapOpt_eq_none (l := rest), Option.map_eq_none']

/-- C6 (amended): a sort-key index that is out of range for some record makes
`sort_file` abort the run with `IndexError` (list indexing raises
`IndexError`, not `KeyError`), rather than skip the record. -/
theorem sort_file_out_of_range_aborts (content : Str) (sort_keys : List Nat)
    (delimiter : Char)
    (h : ∃ row ∈ parseCsv delimiter (univNewlines content), ∃ i ∈ sort_keys,
      row.length ≤ i) :
    sort_file content sort_keys delimiter = .error .indexError := by
  obtain ⟨row, hrow, i, hi, hlen⟩ := h
  have hkey : sortFunc sort_keys row = none :=
    mapOpt_eq_none.mpr ⟨i, hi, List.get?_eq_none.mpr hlen⟩
  have hall : mapOpt
      (fun row => (sortFunc sort_keys row).map (fun k => (k, row)))
      (parseCsv delimiter (univNewlines content)) = none :=
    mapOpt_eq_none.mpr ⟨row, hrow, by rw [hkey]; rfl⟩
  simp only [sort_file, hall]

/-- Witness for `sort_file_out_of_range_aborts` at a concrete input. -/
theorem sort_file_out_of_range_aborts_witness :
    (∃ row ∈ parseCsv ',' (univNewlines "x,y\n".data), ∃ i ∈ [3],
      row.length ≤ i) ∧
    sort_file "x,y\n".data [3] ',' = .error .indexError :=
  ⟨by decide, sort_file_out_of_range_aborts _ _ _ (by decide)⟩

/-- C9: confirmed.  The name of the output file written by `merge_files` is
`md5` of the concatenated input path names: two calls over file sets with
identical path names produce the same output name, whatever the file
contents (or other parameters) are. -/
theorem merge_files_name_depends_only_on_names (files1 files2 : List (Str × Str))
    (sk1 sk2 : List Nat) (hd1 hd2 : Option (List Str)) (d1 d2 : Char)
    (h : files1.map (fun f => f.1) = files2.map (fun f => f.1)) :
    (merge_files files1 sk1 hd1 d1).name = (merge_files files2 sk2 hd2 d2).name := by
  simp only [merge_files]
  rw [h]

/-- Witness for `merge_files_name_depends_only_on_names`: same path name,
different contents. -/
theorem merge_files_name_depends_only_on_names_witness :
    ([("a.csv".data, "1\n".data)].map (fun f => f.1) =
      [("a.csv".data, "2\n".data)].map (fun f => f.1)) ∧
    (merge_files [("a.csv".data, "1\n".data)] [0] none ',').name =
      (merge_files [("a.csv".data, "2\n".data)] [0] none ',').name :=
  ⟨by decide, merge_files_name_depends_only_on_names _ _ _ _ _ _ _ _ (by decide)⟩

/-- C10: confirmed.  With `header=False` the partitioner returns `None` for
`header_cols` on every input, and `external_sort` unconditionally evaluates
`header_cols.strip().split(delimiter)` before dispatching any sort or merge
work, so every run fails immediately with `AttributeError`. -/
theorem external_sort_no_header_always_raises (file_loc content : Str)
    (sort_keys : List Nat) (n_way : Nat) (max_size : ℚ) (delimiter : Char)
    (overwrite : Bool) :
    external_sort file_loc content sort_keys n_way max_size false delimiter
        overwrite = some (.error .attributeError) ∧
    (create_temp_files content max_size false).2 = none :=
  ⟨rfl, rfl⟩

/-! ### C7: the partitioner invariant -/

/-- Every line produced by `readline` iteration is non-empty. -/
theorem pyReadLines_go_ne_nil : ∀ (s acc : Str) (r : Str),
    r ∈ pyReadLines.go s acc → r ≠ []
  | [], acc, r, hr => by
    simp only [pyReadLines.go] at hr
    by_cases h : acc.isEmpty
    · simp [h] at hr
    · simp [h] at hr
      subst hr
      simp only [ne_eq, List.reverse_eq_nil_iff]
      exact fun h2 => h (by simp [h2])
  | c :: rest, acc, r, hr => by
    simp only [pyReadLines.go] at hr
    by_cases h : c = '\n'
    · simp only [h, if_pos rfl] at hr
      rcases List.mem_cons.mp hr with hr | hr
      · subst hr
        simp
      · exact pyReadLines_go_ne_nil rest [] r hr
    · simp only [if_neg h] at hr
      exact pyReadLines_go_ne_nil rest (c :: acc) r hr

theorem pyReadLines_ne_nil (s : Str) (r : Str) (hr : r ∈ pyReadLines s) :
    r ≠ [] :=
  pyReadLines_go_ne_nil s [] r hr

theorem dataRows_ne_nil (content : Str) (header : Bool) (r : Str)
    (hr : r ∈ dataRows content header) : r ≠ [] := by
  rw [dataRows] at hr
  by_cases h : header
  · simp only [h, if_pos rfl] at hr
    exact pyReadLines_ne_nil _ r (List.mem_of_mem_tail hr)
  · simp only [if_neg h] at hr
    exact pyReadLines_ne_nil _ r hr

/-- The partition loop only appends to its accumulator. -/
theorem ctfGo_append (q : ℚ) : ∀ (rows : List Str) (data : Str) (n : Nat)
    (opened : Option Str) (acc : List (Str × Str)),
    ctfGo q rows data n opened acc = acc ++ ctfGo q rows data n opened []
  | [], _, _, none, acc => by simp [ctfGo]
  | [], _, _, some _, acc => by simp [ctfGo]
  | row :: rest, data, n, opened, acc => by
    simp only [ctfGo]
    by_cases h : thresholdReached q (data ++ row).length
    · simp only [h, if_true]
      rw [ctfGo_append q rest [] (n + 1) none,
        ctfGo_append q rest [] (n + 1) none ([] ++ _)]
      simp
    · simp only [h, if_false]
      exact ctfGo_append q rest (data ++ row) n _ acc

/-- Not reaching the threshold bounds the buffer. -/
theorem thresholdReached_false (q : ℚ) (n : Nat)
    (h : thresholdReached q n = false) : (n : ℚ) < q * 1048576 := by
  by_contra h2
  rw [(thresholdReached_iff q n).mpr (not_lt.mp h2)] at h
  exact absurd h (by simp)

/-- A prefix of the groups can only flatten to something shorter. -/
theorem flatten_dropLast_length_le (l : List (List α)) :
    l.dropLast.flatten.length ≤ l.flatten.length := by
  by_cases h : l = []
  · subst h
    simp
  · conv_rhs => rw [← List.dropLast_append_getLast h]
    simp


/-- One step of the partition loop, with the let/match spelled out. -/
theorem ctfGo_cons (q : ℚ) (row : Str) (rest : List Str) (data : Str) (n : Nat)
    (opened : Option Str) (acc : List (Str × Str)) :
    ctfGo q (row :: rest) data n opened acc =
      (if thresholdReached q (data ++ row).length then
        ctfGo q rest [] (n + 1) none
          (acc ++ [((match opened with | some m => m | none => splitName n),
            data ++ row)])
      else ctfGo q rest (data ++ row) n
        (some (match opened with | some m => m | none => splitName n)) acc) := rfl

theorem ctfGo_spec (q : ℚ) (hq : 0 < q) :
    ∀ (rows pending : List Str) (n : Nat) (name : Str),
    (∀ p ∈ pending, p ≠ ([] : Str)) → (∀ r ∈ rows, r ≠ ([] : Str)) →
    ((pending.flatten.length : ℚ) < q * 1048576) →
    ∃ groups : List (List Str),
      groups.flatten = pending ++ rows ∧
      (ctfGo q rows pending.flatten n
          (if pending.isEmpty then none else some name) []).map (fun p => p.2) =
        groups.map List.flatten ∧
      ∀ g ∈ groups, g ≠ [] ∧ (∀ r ∈ g, r ≠ ([] : Str)) ∧
        ((g.dropLast.flatten.length : ℚ) < q * 1048576)
  | [], pending, n, name, hp, _, hlen => by
    cases pending with
    | nil => exact ⟨[], by simp, by simp [ctfGo], by simp⟩
    | cons p ps =>
      refine ⟨[p :: ps], by simp, by simp [ctfGo], ?_⟩
      intro g hg
      rw [List.mem_singleton] at hg
      subst hg
      refine ⟨by simp, hp, lt_of_le_of_lt ?_ hlen⟩
      exact_mod_cast flatten_dropLast_length_le (p :: ps)
  | row :: rest, pending, n, name, hp, hr, hlen => by
    have hrow : row ≠ [] := hr row (List.mem_cons_self _ _)
    have hrest : ∀ r ∈ rest, r ≠ ([] : Str) := fun r h =>
      hr r (List.mem_cons_of_mem _ h)
    have hzero : (([] : List Str).flatten.length : ℚ) < q * 1048576 := by
      simpa using mul_pos hq (by norm_num : (0:ℚ) < 1048576)
    have hp2 : ∀ x ∈ pending ++ [row], x ≠ ([] : Str) := by
      intro x h2
      rcases List.mem_append.mp h2 with h2 | h2
      · exact hp x h2
      · rw [List.mem_singleton] at h2
        subst h2
        exact hrow
    by_cases ht : thresholdReached q (pending.flatten ++ row).length
    · -- the appended line reaches the threshold: flush the chunk
      obtain ⟨groups2, hflat2, hmap2, hcond2⟩ :=
        ctfGo_spec q hq rest [] (n + 1) (splitName (n + 1)) (by simp) hrest hzero
      refine ⟨(pending ++ [row]) :: groups2, by simp [hflat2], ?_, ?_⟩
      · rw [ctfGo_cons, if_pos ht, ctfGo_append]
        simp only [List.nil_append, List.map_append, List.map_cons, List.map_nil,
          List.flatten_nil, List.isEmpty_nil, if_true] at hmap2 ⊢
        rw [hmap2]
        simp
      · intro g hg
        rcases List.mem_cons.mp hg with hg | hg
        · subst hg
          refine ⟨by simp, hp2, ?_⟩
          rw [List.dropLast_concat]
          exact hlen
        · exact hcond2 g hg
    · -- below the threshold: keep accumulating
      have hlen2 : (((pending ++ [row]).flatten.length : ℚ)) < q * 1048576 := by
        have h3 := thresholdReached_false q (pending.flatten ++ row).length
          (Bool.not_eq_true _ ▸ ht)
        simpa using h3
      obtain ⟨groups2, hflat2, hmap2, hcond2⟩ :=
        ctfGo_spec q hq rest (pending ++ [row]) n
          (match (if pending.isEmpty then none else some name) with
            | some m => m | none => splitName n) hp2 hrest hlen2
      refine ⟨groups2, by simpa [List.append_assoc] using hflat2, ?_, hcond2⟩
      rw [ctfGo_cons, if_neg ht]
      have hne : (pending ++ [row]).isEmpty = false := by
        cases pending <;> simp
      rw [hne] at hmap2  -- reduce the if in the IH map equation
      simpa using hmap2

/-- C7: confirmed.  For a positive size threshold, the chunk files produced
by `create_temp_files` partition the data lines into consecutive non-empty
groups in source order (so every chunk file is non-empty and chunks are
emitted in source order), and each chunk consists of a prefix strictly below
the threshold `max_size * 1048576` plus the single line whose append
triggered the rollover, so a chunk exceeds the threshold by less than the
length of that final line — the threshold is checked after appending a line,
never before. -/
theorem create_temp_files_chunk_invariant (content : Str) (max_size : ℚ)
    (header : Bool) (hpos : 0 < max_size) :
    ∃ groups : List (List Str),
      groups.flatten = dataRows content header ∧
      (create_temp_files content max_size header).1.map (fun p => p.2) =
        groups.map List.flatten ∧
      ∀ g ∈ groups, g ≠ [] ∧ List.flatten g ≠ [] ∧
        ((g.dropLast.flatten.length : ℚ) < max_size * 1048576) ∧
        ∃ trigger, g.getLast? = some trigger ∧
          ((g.flatten.length : ℚ) < max_size * 1048576 + trigger.length) := by
  have hzero : (([] : List Str).flatten.length : ℚ) < max_size * 1048576 := by
    simpa using mul_pos hpos (by norm_num : (0:ℚ) < 1048576)
  obtain ⟨groups, hflat, hmap, hcond⟩ :=
    ctfGo_spec max_size hpos (dataRows content header) [] 0 []
      (by simp) (dataRows_ne_nil content header) hzero
  refine ⟨groups, by simpa using hflat, ?_, ?_⟩
  · simpa [create_temp_files] using hmap
  · intro g hg
    obtain ⟨hne, hrows, hbound⟩ := hcond g hg
    have hlastmem : g.getLast hne ∈ g := List.getLast_mem hne
    have hsplit : g.dropLast ++ [g.getLast hne] = g :=
      List.dropLast_append_getLast hne
    refine ⟨hne, ?_, hbound, g.getLast hne, List.getLast?_eq_getLast g hne, ?_⟩
    · intro hfl
      have : g.getLast hne ≠ [] := hrows _ hlastmem
      apply this
      have h2 : (g.dropLast ++ [g.getLast hne]).flatten = [] := by
        rw [hsplit, hfl]
      simp only [List.flatten_append, List.flatten_cons, List.flatten_nil,
        List.append_nil, List.append_eq_nil] at h2
      exact h2.2
    · have h2 : g.flatten.length =
          g.dropLast.flatten.length + (g.getLast hne).length := by
        conv_lhs => rw [← hsplit]
        simp
      rw [h2]
      push_cast
      exact add_lt_add_right hbound _

/-- Witness for `create_temp_files_chunk_invariant` at a concrete input
(threshold 1 MiB, three-line file with header). -/
theorem create_temp_files_chunk_invariant_witness :
    (0 : ℚ) < 1 ∧
    ∃ groups : List (List Str),
      groups.flatten = dataRows "h\na\nb\n".data true ∧
      (create_temp_files "h\na\nb\n".data 1 true).1.map (fun p => p.2) =
        groups.map List.flatten ∧
      ∀ g ∈ groups, g ≠ [] ∧ List.flatten g ≠ [] ∧
        ((g.dropLast.flatten.length : ℚ) < 1 * 1048576) ∧
        ∃ trigger, g.getLast? = some trigger ∧
          ((g.flatten.length : ℚ) < 1 * 1048576 + trigger.length) :=
  ⟨by norm_num, create_temp_files_chunk_invariant "h\na\nb\n".data 1 true
    (by norm_num)⟩

/-! ### C8: the chunk sorter sorts stably -/

/-- When every sort-key index is in range, the composite key exists. -/
theorem sortFunc_isSome (row : List Str) : ∀ (sort_keys : List Nat),
    (∀ i ∈ sort_keys, i < row.length) → ∃ k, sortFunc sort_keys row = some k
  | [], _ => ⟨[], rfl⟩
  | i :: rest, h => by
    have hi : i < row.length := h i (List.mem_cons_self _ _)
    obtain ⟨k, hk⟩ := sortFunc_isSome row rest
      (fun j hj => h j (List.mem_cons_of_mem _ hj))
    refine ⟨row.get ⟨i, hi⟩ :: k, ?_⟩
    simp only [sortFunc, mapOpt, List.get?_eq_get hi]
    rw [show mapOpt (fun i => row.get? i) rest = some k from hk]
    rfl

/-- Key precomputation (`rows.sort(key=...)` evaluates the key of every row
first): under in-range keys it pairs every row with its key. -/
theorem mapOpt_pairs (sort_keys : List Nat) :
    ∀ (rows : List (List Str)),
    (∀ row ∈ rows, ∀ i ∈ sort_keys, i < row.length) →
    ∃ keyed : List (List Str × List Str),
      mapOpt (fun row => (sortFunc sort_keys row).map (fun k => (k, row))) rows =
        some keyed ∧
      keyed.map (fun p => p.2) = rows ∧
      ∀ p ∈ keyed, sortFunc sort_keys p.2 = some p.1
  | [], _ => ⟨[], rfl, rfl, by simp⟩
  | row :: rest, h => by
    obtain ⟨k, hk⟩ := sortFunc_isSome row sort_keys
      (h row (List.mem_cons_self _ _))
    obtain ⟨keyed, hkeyed, hmap, hinv⟩ := mapOpt_pairs sort_keys rest
      (fun r hr => h r (List.mem_cons_of_mem _ hr))
    refine ⟨(k, row) :: keyed, ?_, ?_, ?_⟩
    · simp [mapOpt, hk, hkeyed]
    · simp [hmap]
    · intro p hp
      rcases List.mem_cons.mp hp with hp | hp
      · subst hp
        exact hk
      · exact hinv p hp

/-- C8: confirmed.  Under in-range sort keys, `sort_file` overwrites the file
with the records written back through `csv.writer` with the same delimiter,
where the record sequence is a permutation of the parsed input, is sorted
ascending by composite key (no later record's key is below an earlier
record's), and is stable: for every key value, the records carrying that key
keep their original relative order. -/
theorem sort_file_sorts_stably (content : Str) (sort_keys : List Nat)
    (delimiter : Char)
    (hk : ∀ row ∈ parseCsv delimiter (univNewlines content), ∀ i ∈ sort_keys,
      i < row.length) :
    ∃ sortedRows : List (List Str),
      sort_file content sort_keys delimiter =
        .ok (writeRows delimiter sortedRows) ∧
      sortedRows.Perm (parseCsv delimiter (univNewlines content)) ∧
      sortedRows.Pairwise (fun r1 r2 => ∀ k1 k2,
        sortFunc sort_keys r1 = some k1 → sortFunc sort_keys r2 = some k2 →
        ltKey k2 k1 = false) ∧
      ∀ k : List Str,
        sortedRows.filter (fun r => decide (sortFunc sort_keys r = some k)) =
          (parseCsv delimiter (univNewlines content)).filter
            (fun r => decide (sortFunc sort_keys r = some k)) := by
  obtain ⟨keyed, hkeyed, hmap, hinv⟩ :=
    mapOpt_pairs sort_keys (parseCsv delimiter (univNewlines content)) hk
  have hperm : (keyed.mergeSort keyedLe).Perm keyed := keyed.mergeSort_perm keyedLe
  have hinv2 : ∀ p ∈ keyed.mergeSort keyedLe, sortFunc sort_keys p.2 = some p.1 :=
    fun p hp => hinv p (hperm.subset hp)
  refine ⟨(keyed.mergeSort keyedLe).map (fun p => p.2), ?_, ?_, ?_, ?_⟩
  · simp only [sort_file, hkeyed]
  · rw [← hmap]
    exact hperm.map _
  · rw [List.pairwise_map]
    have hpw : (keyed.mergeSort keyedLe).Pairwise
        (fun a b => keyedLe a b = true) :=
      List.sorted_mergeSort keyedLe_trans keyedLe_total keyed
    refine hpw.imp_of_mem ?_
    intro a b ha hb hab k1 k2 h1 h2
    rw [hinv2 a ha] at h1
    rw [hinv2 b hb] at h2
    cases h1
    cases h2
    simpa [keyedLe] using hab
  · intro k
    have hA : (keyed.filter (fun p => decide (p.1 = k))).Pairwise
        (fun a b => keyedLe a b = true) := by
      refine List.pairwise_of_forall_mem_list ?_
      intro a ha b hb
      have ha2 : a.1 = k := by simpa using List.of_mem_filter ha
      have hb2 : b.1 = k := by simpa using List.of_mem_filter hb
      simp [keyedLe, ha2, hb2, ltKey_irrefl]
    have hAsorted : List.Sublist (keyed.filter (fun p => decide (p.1 = k)))
        (keyed.mergeSort keyedLe) :=
      List.sublist_mergeSort keyedLe_trans keyedLe_total hA
        (List.filter_sublist keyed)
    have hAB : keyed.filter (fun p => decide (p.1 = k)) =
        (keyed.mergeSort keyedLe).filter (fun p => decide (p.1 = k)) := by
      refine List.Sublist.eq_of_length ?_ ?_
      · have h2 := hAsorted.filter (fun p => decide (p.1 = k))
        have h3 : List.filter (fun p => decide (p.1 = k))
            (List.filter (fun p => decide (p.1 = k)) keyed) =
            List.filter (fun p => decide (p.1 = k)) keyed :=
          List.filter_eq_self.mpr (fun a ha => (List.mem_filter.mp ha).2)
        rwa [h3] at h2
      · exact ((hperm.filter _).length_eq).symm
    rw [← hmap, List.filter_map, List.filter_map]
    have hq_sorted : (keyed.mergeSort keyedLe).filter
        ((fun r => decide (sortFunc sort_keys r = some k)) ∘ (fun p => p.2)) =
        (keyed.mergeSort keyedLe).filter (fun p => decide (p.1 = k)) := by
      refine List.filter_congr ?_
      intro p hp
      simp only [Function.comp_apply, hinv2 p hp]
      rw [decide_eq_decide]
      simp
    have hq_keyed : keyed.filter
        ((fun r => decide (sortFunc sort_keys r = some k)) ∘ (fun p => p.2)) =
        keyed.filter (fun p => decide (p.1 = k)) := by
      refine List.filter_congr ?_
      intro p hp
      simp only [Function.comp_apply, hinv p hp]
      rw [decide_eq_decide]
      simp
    rw [hq_sorted, hq_keyed, ← hAB]

/-- Witness for `sort_file_sorts_stably` at a concrete three-record file with
a duplicated key. -/
theorem sort_file_sorts_stably_witness :
    (∀ row ∈ parseCsv ',' (univNewlines "b,1\na,2\nb,0\n".data), ∀ i ∈ [0],
      i < row.length) ∧
    (∃ sortedRows : List (List Str),
      sort_file "b,1\na,2\nb,0\n".data [0] ',' =
        .ok (writeRows ',' sortedRows) ∧
      sortedRows.Perm (parseCsv ',' (univNewlines "b,1\na,2\nb,0\n".data)) ∧
      sortedRows.Pairwise (fun r1 r2 => ∀ k1 k2,
        sortFunc [0] r1 = some k1 → sortFunc [0] r2 = some k2 →
        ltKey k2 k1 = false) ∧
      ∀ k : List Str,
        sortedRows.filter (fun r => decide (sortFunc [0] r = some k)) =
          (parseCsv ',' (univNewlines "b,1\na,2\nb,0\n".data)).filter
            (fun r => decide (sortFunc [0] r = some k))) :=
  ⟨by decide, sort_file_sorts_stably "b,1\na,2\nb,0\n".data [0] ',' (by decide)⟩
